import Mathlib

/-!
Verification of the scrape-merge-persist pipeline of the products_scraper
repository, shallowly embedded from the Python sources
(`scrape_walmart_parallel.py`, `retry_queue_manager.py`,
`utils/product_matcher.py`).  Python dicts are modelled as
insertion-ordered association lists, machine floats used for prices and
match scores as rationals, and strings as Lean strings / lists of
characters.
-/

set_option maxHeartbeats 1000000

namespace ProductsScraper

/-! ### Insertion-ordered dictionaries (Python `dict` semantics) -/

/-- Insert `(k, v)` into an association list with Python-`dict` semantics:
an existing key keeps its position and gets the new value, a fresh key is
appended at the end. -/
def dictInsert {κ ν : Type} [DecidableEq κ] (k : κ) (v : ν) :
    List (κ × ν) → List (κ × ν)
  | [] => [(k, v)]
  | (k', v') :: rest =>
    if k' = k then (k', v) :: rest else (k', v') :: dictInsert k v rest

/-- First-match association-list lookup (Python `dict` access). -/
def lookupKey {κ ν : Type} [DecidableEq κ] (d : List (κ × ν)) (k : κ) :
    Option ν :=
  match d with
  | [] => none
  | (k', v') :: rest => if k' = k then some v' else lookupKey rest k

/-! ### Exact rationals for Python float values

Python prices and match scores are floats; they are modelled as exact
fractions with a positive denominator, compared by cross-multiplication
(all values arising here are decimal literals and small ratios, for which
the float comparisons of the source agree with exact arithmetic). -/

/-- A fraction `num / den` (denominator positive in every value the
model builds). -/
structure Fr where
  num : ℤ
  den : ℤ
deriving DecidableEq

/-- The float `0.0`. -/
def frZero : Fr := ⟨0, 1⟩

/-- `m / n` for the nonnegative integers of the model. -/
def frDivNat (m n : ℕ) : Fr := ⟨m, n⟩

/-- Numeric `a <= b` by cross-multiplication. -/
def frLE (a b : Fr) : Bool := decide (a.num * b.den ≤ b.num * a.den)

/-- Numeric `a < b`. -/
def frLT (a b : Fr) : Bool := decide (a.num * b.den < b.num * a.den)

/-- Numeric `a == b`. -/
def frEqv (a b : Fr) : Bool := decide (a.num * b.den = b.num * a.den)

/-- `a - b`. -/
def frSub (a b : Fr) : Fr := ⟨a.num * b.den - b.num * a.den, a.den * b.den⟩

/-- `a * b`. -/
def frMul (a b : Fr) : Fr := ⟨a.num * b.num, a.den * b.den⟩

/-- `abs(a)` (for positive denominators). -/
def frAbs (a : Fr) : Fr := ⟨|a.num|, a.den⟩

/-- Python `max(a, b)`: `a` when `a >= b`, else `b`. -/
def frMax (a b : Fr) : Fr := if frLE b a then a else b

/-! ### ScrapeRecord and the merge of `save_results_thread_safe` -/

/-- One scraped-result dict, as produced by `search_walmart_for_product`
and persisted by `save_results_thread_safe`.  `product_name` is `none`
when the dict lacks the key (`result.get('product_name')` returns `None`).
Prices are modelled as exact fractions. -/
structure Rec where
  product_name : Option String
  found : Bool
  walmart_url : Option String
  walmart_price : Option Fr
  walmart_product_name : Option String
  walmart_brand : Option String
  walmart_size : Option String
  walmart_in_stock : Option Bool
  error : Option String
  scraped_at : String
deriving DecidableEq

/-- Python truthiness of `result.get('product_name')`: a string key is
truthy iff it is present and non-empty. -/
def truthyName (r : Rec) : Bool :=
  match r.product_name with
  | some s => decide (s ≠ "")
  | none => false

/-- The dict of existing results:
`results_dict = {r.get('product_name'): r for r in existing_results}`. -/
def dictOf (rs : List Rec) : List (Option String × Rec) :=
  rs.foldl (fun d r => dictInsert r.product_name r d) []

/-- The batch-overlay loop of `save_results_thread_safe`: for each result
with a truthy `product_name`, `results_dict[product_name] = result`. -/
def foldBatchD (d : List (Option String × Rec)) (B : List Rec) :
    List (Option String × Rec) :=
  B.foldl (fun d r => if truthyName r then dictInsert r.product_name r d else d) d

/-- The pure merge step of `save_results_thread_safe` (lines 189-203):
build a dict from the existing records, overlay the batch, and take the
dict's values. -/
def mergeResults (existing batch : List Rec) : List Rec :=
  (foldBatchD (dictOf existing) batch).map Prod.snd

/-- A record list viewed as a map from `product_name` to record
(later records win, as in the Python dict comprehension). -/
def recMap (rs : List Rec) : Option String → Option Rec :=
  fun k => lookupKey (dictOf rs) k

/-- `total_products` of the written snapshot: `len(all_results)`. -/
def totalProducts (rs : List Rec) : ℕ := rs.length

/-- `products_found` of the written snapshot:
`sum(1 for r in all_results if r.get('found'))`. -/
def productsFound (rs : List Rec) : ℕ := (rs.filter (fun r => r.found)).length

/-- The snapshot file as seen by `save_results_thread_safe`: missing,
unparseable, or a parseable products list. -/
inductive FileState where
  | absent
  | corrupted
  | good (l : List Rec)
deriving DecidableEq

/-- Number of records readable from the snapshot file. -/
def fileCount : FileState → ℕ
  | .good l => l.length
  | _ => 0

/-- `(total_products, products_found)` of a parseable snapshot. -/
def fileTotals : FileState → Option (ℕ × ℕ)
  | .good l => some (totalProducts l, productsFound l)
  | _ => none

/-- `load_existing_results`: returns the parsed products; an absent file
yields `[]`; a corrupted file falls back to the newest loadable backup,
else `[]`.  `backup` is the content of that backup, if any. -/
def load_existing_results : FileState → Option (List Rec) → List Rec
  | .good l, _ => l
  | .absent, _ => []
  | .corrupted, backup => backup.getD []

/-- `save_results_thread_safe` (state transition on the snapshot file).
`existing_count_before` comes from the pre-backup read (which raises, and
so stays 0, on a corrupted file); a load of 0 records from a file that
held `N > 0` triggers backup recovery and, failing that, an abort; the
merged dict must not be smaller than the reloaded dict, else abort; the
merged values are then written atomically. -/
def save_results_thread_safe (results : List Rec) (file : FileState)
    (backup : Option (List Rec)) : FileState :=
  let existing_count_before : ℕ :=
    match file with
    | .good l => l.length
    | _ => 0
  let loaded := load_existing_results file backup
  let existing :=
    if 0 < existing_count_before ∧ loaded.length = 0 then backup.getD []
    else loaded
  if 0 < existing_count_before ∧ existing.length = 0 then file
  else
    let d := dictOf existing
    let merged := foldBatchD d results
    if 0 < d.length ∧ merged.length < d.length then file
    else .good (merged.map Prod.snd)

/-- The snapshot invariant the store maintains for files it writes
itself: at most one record per `product_name` key. -/
def goodNodupKeys : FileState → Prop
  | .good l => (l.map Rec.product_name).Nodup
  | _ => True

/-! ### Retry queue (`retry_queue_manager.py`) -/

/-- `MAX_RETRY_ATTEMPTS = 3`. -/
def MAX_RETRY_ATTEMPTS : ℕ := 3

/-- The retry queue: the `products` dict of `retry_queue.json`,
mapping product name to attempt count. -/
abbrev RQ : Type := List (String × ℕ)

/-- `retry_queue.get(product_name, 0)` and friends. -/
def qLookup (q : RQ) (p : String) : Option ℕ := lookupKey q p

/-- `add_to_retry_queue`: increment the attempt counter unless the cap
`MAX_RETRY_ATTEMPTS` has been reached (then log only, change nothing). -/
def add_to_retry_queue (p : String) (q : RQ) : RQ :=
  let current_attempts := (qLookup q p).getD 0
  if current_attempts < MAX_RETRY_ATTEMPTS then
    dictInsert p (current_attempts + 1) q
  else q

/-- `remove_from_retry_queue`: delete the key if present. -/
def remove_from_retry_queue (p : String) (q : RQ) : RQ :=
  q.filter (fun e => decide (e.1 ≠ p))

/-- `get_retry_queue_products`: names whose attempts are below the cap. -/
def get_retry_queue_products (q : RQ) : List String :=
  (q.filter (fun e => decide (e.2 < MAX_RETRY_ATTEMPTS))).map Prod.fst

/-- One retry-queue mutation. -/
inductive QOp where
  | add (p : String)
  | remove (p : String)

/-- Apply a sequence of retry-queue operations. -/
def applyOps (ops : List QOp) (q : RQ) : RQ :=
  ops.foldl
    (fun q op =>
      match op with
      | .add p => add_to_retry_queue p q
      | .remove p => remove_from_retry_queue p q)
    q

/-! ### Worker loop (`worker_thread`) and pipeline -/

/-- One iteration of `worker_thread` for a product whose
`search_walmart_for_product` outcome is given (`none` = blocked): a
blocked outcome is skipped (only the private consecutive-block counter
moves; nothing reaches the result queue and the retry queue is not
touched); a `found` result is put on the result queue; a not-found result
is only logged. -/
def worker_step (q : RQ) (emitted : List Rec) (outcome : Option Rec) :
    RQ × List Rec :=
  match outcome with
  | none => (q, emitted)
  | some r => if r.found then (q, emitted ++ [r]) else (q, emitted)

/-- The worker loop over a product list, with `resolve` standing for
`search_walmart_for_product` on the live store. -/
def worker_run (resolve : String → Option Rec) (ps : List String)
    (q : RQ) (emitted : List Rec) : RQ × List Rec :=
  ps.foldl (fun s p => worker_step s.1 s.2 (resolve p)) (q, emitted)

/-- End-to-end pipeline on a fresh output file: workers emit results,
the queue manager flushes them into `save_results_thread_safe`. -/
def run_pipeline (resolve : String → Option Rec) (catalog : List String) :
    FileState :=
  save_results_thread_safe (worker_run resolve catalog [] []).2 .absent none

/-! ### Python string primitives over `List Char` -/

/-- `str.lower()` (basic-latin model, as `Char.toLower`). -/
def pyLower (l : List Char) : List Char := l.map Char.toLower

/-- Auxiliary for `str.split()`: cut a character list at whitespace,
keeping (possibly empty) segments; the head segment is the one currently
being built. -/
def pySplitRaw : List Char → List (List Char)
  | [] => [[]]
  | c :: cs =>
    if c.isWhitespace then [] :: pySplitRaw cs
    else
      match pySplitRaw cs with
      | [] => [[c]]
      | t :: ts => (c :: t) :: ts

/-- `str.split()` with no separator: maximal non-whitespace runs. -/
def pySplit (l : List Char) : List (List Char) :=
  (pySplitRaw l).filter (fun t => decide (t ≠ []))

/-- `' '.join(tokens)`. -/
def joinSp : List (List Char) → List Char
  | [] => []
  | [t] => t
  | t :: t' :: ts => t ++ ' ' :: joinSp (t' :: ts)

/-- `' '.join(s.split())`: collapse whitespace runs to single spaces and
trim the ends. -/
def collapse (l : List Char) : List Char := joinSp (pySplit l)

/-- `str.strip()`: drop whitespace from both ends. -/
def pyStrip (l : List Char) : List Char :=
  (((l.dropWhile Char.isWhitespace).reverse).dropWhile Char.isWhitespace).reverse

/-- Python substring test `pat in hay` (contiguous substring). -/
def listContains (hay pat : List Char) : Bool :=
  hay.tails.any (fun t => pat.isPrefixOf t)

/-! ### `normalize_product_name` (`utils/product_matcher.py`) -/

/-- Python's `\w` character class (basic-latin model):
alphanumeric or underscore. -/
def isWordChar (c : Char) : Bool := c.isAlphanum || c = '_'

/-- Scan for the first unescaped closing character, failing on a newline
(`.` in a Python regex does not match `'\n'`); returns the remainder
after the closer. -/
def findClose (closer : Char) : List Char → Option (List Char)
  | [] => none
  | c :: cs =>
    if c = closer then some cs
    else if c = '\n' then none
    else findClose closer cs

/-- Match the regex `\s*(\(.*?\)|\[.*?\])` at the start of the list;
on success return the remainder after the match. -/
def matchBracket (l : List Char) : Option (List Char) :=
  match l.dropWhile Char.isWhitespace with
  | [] => none
  | c :: r =>
    if c = '(' then findClose ')' r
    else if c = '[' then findClose ']' r
    else none

/-- `re.sub(r'\s*(\(.*?\)|\[.*?\])', '', s)`: delete every leftmost
bracketed group together with the whitespace before it.  `fuel` bounds
the number of scan steps; `sub2` supplies `l.length`, which is enough
since every step consumes at least one character. -/
def sub2Fuel : ℕ → List Char → List Char
  | 0, l => l
  | (fuel + 1), l =>
    match l with
    | [] => []
    | c :: cs =>
      match matchBracket (c :: cs) with
      | some rest => sub2Fuel fuel rest
      | none => c :: sub2Fuel fuel cs

/-- The bracket-removal substitution, with adequate fuel. -/
def sub2 (l : List Char) : List Char := sub2Fuel l.length l

/-- Match the regex `\s*-\s*` at the start of the list; on success return
the remainder after the match. -/
def matchDash (l : List Char) : Option (List Char) :=
  match l.dropWhile Char.isWhitespace with
  | [] => none
  | c :: r =>
    if c = '-' then some (r.dropWhile Char.isWhitespace)
    else none

/-- `re.sub(r'\s*-\s*', ' ', s)`: replace every leftmost
whitespace-dash-whitespace run by a single space. -/
def sub3Fuel : ℕ → List Char → List Char
  | 0, l => l
  | (fuel + 1), l =>
    match l with
    | [] => []
    | c :: cs =>
      match matchDash (c :: cs) with
      | some rest => ' ' :: sub3Fuel fuel rest
      | none => c :: sub3Fuel fuel cs

/-- The dash-normalizing substitution, with adequate fuel. -/
def sub3 (l : List Char) : List Char := sub3Fuel l.length l

/-- `re.sub(r'[^\w\s]', '', s)`: keep only word characters and
whitespace. -/
def filter5 (l : List Char) : List Char :=
  l.filter (fun c => isWordChar c || c.isWhitespace)

/-- The body of `normalize_product_name` on character lists: lowercase,
drop bracketed groups, normalize dashes, collapse whitespace, drop the
remaining special characters, strip. -/
def normalizeL (l : List Char) : List Char :=
  pyStrip (filter5 (collapse (sub3 (sub2 (pyLower l)))))

/-- `normalize_product_name` from `utils/product_matcher.py`. -/
def normalize_product_name (s : String) : String :=
  if s = "" then "" else (normalizeL s.toList).asString

/-! ### Match selection (`search_walmart_for_product`, lines 271-343) -/

/-- A search-result product (`WalmartProduct`): optional fields as the
scraper leaves them. -/
structure Candidate where
  name : Option String
  price : Option Fr
  product_url : Option String
  brand : Option String
  size : Option String
  in_stock : Option Bool
deriving DecidableEq

/-- The search-term list: lowercased, stripped whitespace tokens of the
target of length > 2, plus the full lowercased target as one more term
when the target is longer than 3 characters. -/
def searchTerms (target : String) : List (List Char) :=
  let toks := ((pySplit target.toList).filter
      (fun t => decide (t.length > 2))).map (fun t => pyStrip (pyLower t))
  if target.toList.length > 3 then toks ++ [pyStrip (pyLower target.toList)]
  else toks

/-- `matching_terms`: `sum(1 for term in search_terms if term in
product_name_lower and len(term) > 3)`. -/
def matching_terms (terms : List (List Char)) (nameLower : List Char) : ℕ :=
  terms.countP (fun t => listContains nameLower t && decide (t.length > 3))

/-- `match_ratio = matching_terms / len(search_terms) if search_terms
else 0`. -/
def match_score (terms : List (List Char)) (nameLower : List Char) : Fr :=
  if terms = [] then frZero
  else frDivNat (matching_terms terms nameLower) terms.length

/-- The follow-up of the score: when the target is longer than 5
characters, tokenize it into "main words" of length > 3; if at least 60%
of them occur in the candidate name, the full-phrase flag fires and the
score is boosted to at least 0.8.  Returns (score, full_phrase_match). -/
def candScore (target : String) (nameLower : List Char) : Fr × Bool :=
  let r0 := match_score (searchTerms target) nameLower
  if target.toList.length > 5 then
    let main_words :=
      (pySplit (pyLower target.toList)).filter (fun w => decide (w.length > 3))
    if main_words ≠ [] then
      let main_words_in_product :=
        main_words.countP (fun w => listContains nameLower w)
      if frLE (frMul (frDivNat main_words.length 1) (frDivNat 6 10))
          (frDivNat main_words_in_product 1)
      then (frMax r0 (frDivNat 8 10), true)
      else (r0, false)
    else (r0, false)
  else (r0, false)

/-- `product.price or float('inf')`: the sort key for prices, with `none`
standing for infinity (a price of exactly 0 is falsy in Python and also
becomes infinity). -/
def priceKey (p : Option Fr) : Option Fr :=
  match p with
  | some q => if frEqv q frZero then none else some q
  | none => none

/-- Comparison of price keys (`none` = infinity). -/
def pkLE (a b : Option Fr) : Bool :=
  match b with
  | none => true
  | some qb =>
    match a with
    | none => false
    | some qa => frLE qa qb

/-- The `(-match_ratio, price)` sort key comparison of line 331. -/
def keyLE (a b : Candidate × Fr × Option Fr) : Bool :=
  frLT b.2.1 a.2.1 || (frEqv a.2.1 b.2.1 && pkLE a.2.2 b.2.2)

/-- Comparison by price key only (line 341, `key=lambda x: x[2]`). -/
def priceOnlyLE (a b : Candidate × Fr × Option Fr) : Bool :=
  pkLE a.2.2 b.2.2

/-- Stable insertion: place `x` after every earlier element that compares
less-or-equal to it (the order Python's stable `list.sort` produces). -/
def insertLe {α : Type} (le : α → α → Bool) (x : α) : List α → List α
  | [] => [x]
  | y :: ys => if le y x then y :: insertLe le x ys else x :: y :: ys

/-- Stable sort by a total-preorder comparison (models `list.sort`). -/
def sortLe {α : Type} (le : α → α → Bool) (l : List α) : List α :=
  l.foldl (fun acc x => insertLe le x acc) []

/-- Build `matching_products`: skip candidates with a falsy or
`'Unknown Product'` name, score the rest, and keep those passing the
permissive acceptance test of line 304. -/
def buildMatching (target : String) (products : List Candidate) :
    List (Candidate × Fr × Option Fr) :=
  products.filterMap (fun p =>
    match p.name with
    | none => none
    | some nm =>
      if nm = "" || nm = "Unknown Product" then none
      else
        let nameLower := pyLower nm.toList
        let score := candScore target nameLower
        let mt := matching_terms (searchTerms target) nameLower
        if frLE (frDivNat 2 10) score.1 || score.2 || decide (mt > 0) ||
            (searchTerms target).any
              (fun t => decide (t.length > 2) && listContains nameLower t)
        then some (p, score.1, priceKey p.price)
        else none)

/-- The match-selection procedure of lines 271-343: filter and score the
candidates, fall back to the store's first result when nothing is
accepted, otherwise sort by (score descending, price ascending) and,
among candidates within 0.1 of the top score, take the cheapest. -/
def selectBest (target : String) (products : List Candidate) :
    Option Candidate :=
  let matching := buildMatching target products
  match sortLe keyLE matching with
  | [] => products.head?
  | best :: rest =>
    let sorted := best :: rest
    let same_ratio :=
      sorted.filter (fun p => frLT (frAbs (frSub p.2.1 best.2.1)) (frDivNat 1 10))
    if same_ratio.length > 1 then
      match sortLe priceOnlyLE same_ratio with
      | cheapest :: _ => some cheapest.1
      | [] => some best.1
    else some best.1

/-! ### Detail fetch and the full search (`search_walmart_for_product`) -/

/-- Outcome of `scraper.get_product_details(url)`: `failedBlocked` is a
`None` return with the driver URL showing a block, `failedParse` a `None`
return without one, `fetched` a parsed product. -/
inductive DetailOutcome where
  | failedBlocked
  | failedParse
  | fetched (c : Candidate)

/-- The detail record replaces the search result wholesale exactly when
its name is truthy and longer than 3 characters (the first two branches
of lines 367-374 combined). -/
def validDetailName (d : Candidate) : Bool :=
  match d.name with
  | some s => decide (s ≠ "") && decide (s.toList.length > 3)
  | none => false

/-- Python truthiness of an optional string field. -/
def strTruthy (o : Option String) : Bool :=
  match o with
  | some s => decide (s ≠ "")
  | none => false

/-- Python truthiness of an optional price (0.0 is falsy). -/
def priceTruthy (o : Option Fr) : Bool :=
  match o with
  | some q => !frEqv q frZero
  | none => false

/-- The selective overlay of lines 376-383: take the detail price, and
brand/size/in_stock only where the detail fetch supplied them. -/
def overlayDetail (best d : Candidate) : Candidate :=
  { best with
    price := d.price
    brand := if strTruthy d.brand then d.brand else best.brand
    size := if strTruthy d.size then d.size else best.size
    in_stock := if d.in_stock ≠ none then d.in_stock else best.in_stock }

/-- Lines 345-391: when the best match has a product URL, one detail
fetch is attempted; a blocked fetch aborts the product, a failed parse
keeps the search snapshot, a fetched record with a valid name replaces
the snapshot wholesale, one with only a truthy price is overlaid, and
anything else keeps the snapshot. -/
def resolveDetail (best : Candidate) (d : DetailOutcome) : Option Candidate :=
  match best.product_url with
  | none => some best
  | some _ =>
    match d with
    | .failedBlocked => none
    | .failedParse => some best
    | .fetched det =>
      if validDetailName det then some det
      else if priceTruthy det.price then some (overlayDetail best det)
      else some best

/-- Number of detail fetches `search_walmart_for_product` performs for a
chosen best match: the single call guarded by
`if best_product.product_url:`. -/
def detailFetchCount (best : Candidate) : ℕ :=
  if best.product_url.isSome then 1 else 0

/-- Modelled from the spec: the number of detail fetches the spec
prescribes — one exactly when the best match lacks a price
("if the best match lacks a price (or other key fields), attempt exactly
one follow-up detail fetch"). -/
def specDetailFetchCount (best : Candidate) : ℕ :=
  if best.price = none then 1 else 0

/-- Modelled from the spec: `matching_terms` as the claim words it — the
count of all terms of the list appearing as substrings of the candidate
name, with no length restriction. -/
def spec_matching_terms (terms : List (List Char)) (nameLower : List Char) :
    ℕ :=
  terms.countP (fun t => listContains nameLower t)

/-- The final validity test of line 395: a name must be present,
not `'Unknown Product'`, and at least 2 characters long. -/
def finalValid (c : Candidate) : Bool :=
  match c.name with
  | some s =>
    decide (s ≠ "") && decide (s ≠ "Unknown Product") &&
      decide (s.toList.length ≥ 2)
  | none => false

/-- The `found=True` result dict of lines 409-419. -/
def mkFoundRec (target : String) (c : Candidate) (now : String) : Rec :=
  { product_name := some target
    found := true
    walmart_url := c.product_url
    walmart_price := c.price
    walmart_product_name := c.name
    walmart_brand := c.brand
    walmart_size := c.size
    walmart_in_stock := c.in_stock
    error := none
    scraped_at := now }

/-- The `found=False` result dict of lines 258-265. -/
def mkNotFoundRec (target : String) (now : String) : Rec :=
  { product_name := some target
    found := false
    walmart_url := none
    walmart_price := none
    walmart_product_name := none
    walmart_brand := none
    walmart_size := none
    walmart_in_stock := none
    error := none
    scraped_at := now }

/-- `search_walmart_for_product`: `searchRes` is the store's candidate
list (`none` = blocked search), `detail` the outcome of the one detail
fetch.  A blocked search or a blocked detail fetch yields `none`; an
empty candidate list yields a not-found record; otherwise the best match
is selected, detail-resolved, and turned into a found record when its
name passes the final validity test. -/
def search_walmart_for_product (target : String)
    (searchRes : Option (List Candidate)) (detail : DetailOutcome)
    (now : String) : Option Rec :=
  match searchRes with
  | none => none
  | some [] => some (mkNotFoundRec target now)
  | some products =>
    match selectBest target products with
    | none => some (mkNotFoundRec target now)
    | some best0 =>
      match resolveDetail best0 detail with
      | none => none
      | some best =>
        if finalValid best then some (mkFoundRec target best now)
        else some (mkNotFoundRec target now)

/-! ### Auxiliary predicates and concrete instances used by the claims -/

/-- Every entry of a results dict carries its own record's
`product_name` as its key. -/
def Coherent (d : List (Option String × Rec)) : Prop :=
  ∀ e ∈ d, e.1 = e.2.product_name

/-- The last record of a batch that has a given truthy key (the record a
Python dict overlay leaves at that key). -/
def lastMatch (B : List Rec) (k : Option String) : Option Rec :=
  B.foldl
    (fun acc r =>
      if truthyName r && decide (r.product_name = k) then some r else acc)
    none

/-- All attempt counters are within the retry cap. -/
def qBounded (q : RQ) : Prop := ∀ e ∈ q, e.2 ≤ MAX_RETRY_ATTEMPTS

/-- A record named `"A"`, first copy (C1 counterexample). -/
def dupA1 : Rec := ⟨some "A", true, none, none, none, none, none, none, none, "t1"⟩

/-- A record named `"A"`, second copy with a later timestamp. -/
def dupA2 : Rec := ⟨some "A", true, none, none, none, none, none, none, none, "t2"⟩

/-- A single named record for witnesses. -/
def wRecA : Rec := ⟨some "A", true, none, none, none, none, none, none, none, "t1"⟩

/-- A named batch record (C9 witness). -/
def w9named : Rec := ⟨some "B", true, none, none, none, none, none, none, none, "t3"⟩

/-- A batch record whose dict lacks the `product_name` key (C9 witness). -/
def w9nameless : Rec := ⟨none, true, none, none, none, none, none, none, none, "t4"⟩

/-- C5 candidate 1: `{name:"Nestle 2% Milk 2L", price:4.99}`. -/
def c5milk1 : Candidate :=
  ⟨some "Nestle 2% Milk 2L", some ⟨499, 100⟩, some "u1", none, none, none⟩

/-- C5 candidate 2: `{name:"Generic Soap", price:1.00}`. -/
def c5soap : Candidate :=
  ⟨some "Generic Soap", some ⟨1, 1⟩, some "u2", none, none, none⟩

/-- C5 candidate 3: `{name:"Nestle Milk 2L Carton", price:3.49}`. -/
def c5milk3 : Candidate :=
  ⟨some "Nestle Milk 2L Carton", some ⟨349, 100⟩, some "u3", none, none, none⟩

/-- The single store hit for the C2 scenario's first product. -/
def milkCandidate : Candidate :=
  ⟨some "Nestle 2% Milk 2L", some ⟨499, 100⟩, some "https://walmart.example/milk",
    none, none, none⟩

/-- The C2 store: a match for `"Milk 2L Nestle"`, zero candidates for
everything else. -/
def storeC2 : String → Option (List Candidate) :=
  fun p => if p = "Milk 2L Nestle" then some [milkCandidate] else some []

/-- `search_walmart_for_product` against the C2 store. -/
def resolveC2 : String → Option Rec :=
  fun p => search_walmart_for_product p (storeC2 p) .failedParse "t0"

/-- A best match with name, price and URL all present (C3). -/
def c3best : Candidate :=
  ⟨some "Nestle 2% Milk 2L", some ⟨499, 100⟩, some "u", some "Nestle",
    some "2L", some true⟩

/-- A detail fetch result with an invalid name but a truthy price (C3
witness). -/
def c3detail : Candidate :=
  ⟨some "ab", some ⟨379, 100⟩, some "u", some "Nestle Inc", none, none⟩

end ProductsScraper

/-! ## Theorems -/

namespace ProductsScraper

/-! ### Association-list dictionary lemmas -/

theorem length_dictInsert {κ ν : Type} [DecidableEq κ] (k : κ) (v : ν)
    (d : List (κ × ν)) : d.length ≤ (dictInsert k v d).length := by
  induction d with
  | nil => simp [dictInsert]
  | cons e rest ih =>
    obtain ⟨k', v'⟩ := e
    by_cases h : k' = k <;> simp [dictInsert, h] <;> omega

theorem lookupKey_dictInsert {κ ν : Type} [DecidableEq κ] (k k' : κ) (v : ν)
    (d : List (κ × ν)) :
    lookupKey (dictInsert k v d) k' =
      if k' = k then some v else lookupKey d k' := by
  induction d with
  | nil =>
    by_cases h : k = k'
    · subst h
      simp [dictInsert, lookupKey]
    · have h2 : ¬ k' = k := fun hh => h hh.symm
      simp [dictInsert, lookupKey, h, h2]
  | cons e rest ih =>
    obtain ⟨a, b⟩ := e
    by_cases hak : a = k
    · subst hak
      by_cases h : a = k'
      · subst h
        simp [dictInsert, lookupKey]
      · have h2 : ¬ k' = a := fun hh => h hh.symm
        simp [dictInsert, lookupKey, h, h2]
    · by_cases h : a = k'
      · have h2 : ¬ k' = k := fun hh => hak (h.trans hh)
        simp [dictInsert, lookupKey, hak, h, h2]
      · simp [dictInsert, lookupKey, hak, h, ih]

theorem mem_dictInsert {κ ν : Type} [DecidableEq κ] {e : κ × ν} {k : κ}
    {v : ν} {d : List (κ × ν)} (he : e ∈ dictInsert k v d) :
    e = (k, v) ∨ e ∈ d := by
  induction d with
  | nil => simpa [dictInsert] using he
  | cons f rest ih =>
    obtain ⟨a, b⟩ := f
    by_cases hak : a = k
    · subst hak
      rcases (by simpa [dictInsert] using he : e = (a, v) ∨ e ∈ rest) with h | h
      · exact Or.inl h
      · exact Or.inr (List.mem_cons_of_mem _ h)
    · rcases (by simpa [dictInsert, hak] using he :
        e = (a, b) ∨ e ∈ dictInsert k v rest) with h | h
      · exact Or.inr (by simp [h])
      · rcases ih h with h' | h'
        · exact Or.inl h'
        · exact Or.inr (List.mem_cons_of_mem _ h')

theorem mem_keys_dictInsert {κ ν : Type} [DecidableEq κ] {k'' k : κ} {v : ν}
    {d : List (κ × ν)} (h : k'' ∈ (dictInsert k v d).map Prod.fst) :
    k'' ∈ d.map Prod.fst ∨ k'' = k := by
  rcases List.mem_map.mp h with ⟨e, he, rfl⟩
  rcases mem_dictInsert he with h' | h'
  · subst h'
    exact Or.inr rfl
  · exact Or.inl (List.mem_map_of_mem _ h')

theorem dictInsert_of_not_mem {κ ν : Type} [DecidableEq κ] {k : κ} (v : ν)
    {d : List (κ × ν)} (h : k ∉ d.map Prod.fst) :
    dictInsert k v d = d ++ [(k, v)] := by
  induction d with
  | nil => simp [dictInsert]
  | cons e rest ih =>
    obtain ⟨a, b⟩ := e
    have ha : a ≠ k := by
      intro hak
      exact h (by simp [hak])
    simp only [dictInsert, ha, if_false, List.cons_append]
    rw [ih (by
      intro hmem
      exact h (by simp [hmem]))]

theorem nodup_keys_dictInsert {κ ν : Type} [DecidableEq κ] {k : κ} (v : ν)
    {d : List (κ × ν)} (h : (d.map Prod.fst).Nodup) :
    ((dictInsert k v d).map Prod.fst).Nodup := by
  induction d with
  | nil => simp [dictInsert]
  | cons e rest ih =>
    obtain ⟨a, b⟩ := e
    simp only [List.map_cons, List.nodup_cons] at h
    by_cases hak : a = k
    · subst hak
      simpa [dictInsert, List.nodup_cons] using h
    · simp only [dictInsert, hak, if_false, List.map_cons, List.nodup_cons]
      refine ⟨fun hmem => ?_, ih h.2⟩
      rcases mem_keys_dictInsert hmem with h' | h'
      · exact h.1 h'
      · exact hak h'

theorem lookupKey_mem {κ ν : Type} [DecidableEq κ] {d : List (κ × ν)}
    {k : κ} {v : ν} (h : lookupKey d k = some v) : (k, v) ∈ d := by
  induction d with
  | nil => simp [lookupKey] at h
  | cons e rest ih =>
    obtain ⟨a, b⟩ := e
    by_cases hak : a = k
    · subst hak
      simp [lookupKey] at h
      simp [h]
    · simp only [lookupKey, if_neg hak] at h
      exact List.mem_cons_of_mem _ (ih h)

theorem lookupKey_of_mem_nodup {κ ν : Type} [DecidableEq κ]
    {d : List (κ × ν)} {k : κ} {v : ν} (hn : (d.map Prod.fst).Nodup)
    (h : (k, v) ∈ d) : lookupKey d k = some v := by
  induction d with
  | nil => simp at h
  | cons e rest ih =>
    obtain ⟨a, b⟩ := e
    simp only [List.map_cons, List.nodup_cons] at hn
    rcases List.mem_cons.mp h with h' | h'
    · obtain ⟨rfl, rfl⟩ := Prod.mk.injEq .. ▸ h'
      simp [lookupKey]
    · by_cases hak : a = k
      · subst hak
        exact absurd (List.mem_map_of_mem Prod.fst h') hn.1
      · simp only [lookupKey, if_neg hak]
        exact ih hn.2 h'

/-! ### Invariants of `dictOf` and `foldBatchD` -/

theorem coherent_foldl_dictOf (rs : List Rec)
    (acc : List (Option String × Rec)) (hacc : Coherent acc) :
    Coherent (rs.foldl (fun d r => dictInsert r.product_name r d) acc) := by
  induction rs generalizing acc with
  | nil => exact hacc
  | cons r rest ih =>
    refine ih _ (fun e he => ?_)
    rcases mem_dictInsert he with h | h
    · subst h
      rfl
    · exact hacc e h

theorem coherent_dictOf (rs : List Rec) : Coherent (dictOf rs) :=
  coherent_foldl_dictOf rs [] (by intro e he; simp at he)

theorem nodup_foldl_dictOf (rs : List Rec)
    (acc : List (Option String × Rec)) (hacc : (acc.map Prod.fst).Nodup) :
    ((rs.foldl (fun d r => dictInsert r.product_name r d) acc).map
      Prod.fst).Nodup := by
  induction rs generalizing acc with
  | nil => exact hacc
  | cons r rest ih => exact ih _ (nodup_keys_dictInsert r hacc)

theorem nodup_dictOf (rs : List Rec) : ((dictOf rs).map Prod.fst).Nodup :=
  nodup_foldl_dictOf rs [] (by simp)

theorem coherent_foldBatchD (d : List (Option String × Rec))
    (B : List Rec) (hd : Coherent d) : Coherent (foldBatchD d B) := by
  induction B generalizing d with
  | nil => exact hd
  | cons r rest ih =>
    simp only [foldBatchD, List.foldl_cons]
    by_cases h : truthyName r
    · simp only [h, if_true]
      refine ih _ (fun e he => ?_)
      rcases mem_dictInsert he with h' | h'
      · subst h'
        rfl
      · exact hd e h'
    · simp only [h, if_false]
      exact ih _ hd

theorem nodup_foldBatchD (d : List (Option String × Rec))
    (B : List Rec) (hd : (d.map Prod.fst).Nodup) :
    ((foldBatchD d B).map Prod.fst).Nodup := by
  induction B generalizing d with
  | nil => exact hd
  | cons r rest ih =>
    simp only [foldBatchD, List.foldl_cons]
    by_cases h : truthyName r
    · simp only [h, if_true]
      exact ih _ (nodup_keys_dictInsert r hd)
    · simp only [h, if_false]
      exact ih _ hd

theorem length_foldBatchD (d : List (Option String × Rec)) (B : List Rec) :
    d.length ≤ (foldBatchD d B).length := by
  induction B generalizing d with
  | nil => exact Nat.le_refl _
  | cons r rest ih =>
    simp only [foldBatchD, List.foldl_cons]
    by_cases h : truthyName r
    · simp only [h, if_true]
      exact Nat.le_trans (length_dictInsert _ _ _) (ih _)
    · simp only [h, if_false]
      exact ih _

theorem length_foldl_dictOf_of_nodup (rs : List Rec)
    (acc : List (Option String × Rec))
    (hnd : (rs.map Rec.product_name).Nodup)
    (hdisj : ∀ r ∈ rs, r.product_name ∉ acc.map Prod.fst) :
    (rs.foldl (fun d r => dictInsert r.product_name r d) acc).length =
      acc.length + rs.length := by
  induction rs generalizing acc with
  | nil => simp
  | cons r rest ih =>
    simp only [List.map_cons, List.nodup_cons] at hnd
    simp only [List.foldl_cons]
    have hdisj' : ∀ r' ∈ rest,
        r'.product_name ∉ (dictInsert r.product_name r acc).map Prod.fst := by
      intro r' hr' hmem
      rcases mem_keys_dictInsert hmem with h' | h'
      · exact hdisj r' (List.mem_cons_of_mem _ hr') h'
      · exact hnd.1 (h' ▸ List.mem_map_of_mem Rec.product_name hr')
    rw [ih (dictInsert r.product_name r acc) hnd.2 hdisj',
      dictInsert_of_not_mem r (hdisj r (List.mem_cons_self r rest))]
    simp only [List.length_append, List.length_cons, List.length_nil]
    omega

theorem length_dictOf_of_nodup (rs : List Rec)
    (hnd : (rs.map Rec.product_name).Nodup) :
    (dictOf rs).length = rs.length := by
  have h := length_foldl_dictOf_of_nodup rs [] hnd (by simp)
  simpa [dictOf] using h

theorem foldl_dictOf_fresh (d : List (Option String × Rec))
    (acc : List (Option String × Rec)) (hco : Coherent d)
    (hnd : (d.map Prod.fst).Nodup)
    (hdisj : ∀ k ∈ d.map Prod.fst, k ∉ acc.map Prod.fst) :
    (d.map Prod.snd).foldl (fun a r => dictInsert r.product_name r a) acc =
      acc ++ d := by
  induction d generalizing acc with
  | nil => simp
  | cons e rest ih =>
    obtain ⟨k, v⟩ := e
    have hk : k = v.product_name := hco (k, v) (List.mem_cons_self _ _)
    simp only [List.map_cons, List.nodup_cons] at hnd
    simp only [List.map_cons, List.foldl_cons]
    have hfresh : v.product_name ∉ acc.map Prod.fst := by
      rw [← hk]
      exact hdisj k (by simp)
    have hco' : Coherent rest := fun e' he' => hco e' (List.mem_cons_of_mem _ he')
    have hdisj' : ∀ k' ∈ rest.map Prod.fst,
        k' ∉ (dictInsert v.product_name v acc).map Prod.fst := by
      intro k' hk' hmem
      rcases mem_keys_dictInsert hmem with h' | h'
      · exact hdisj k' (by simp [hk']) h'
      · refine hnd.1 ?_
        rw [hk, ← h']
        exact hk'
    rw [ih (dictInsert v.product_name v acc) hco' hnd.2 hdisj',
      dictInsert_of_not_mem v hfresh, List.append_assoc, ← hk]
    rfl

theorem dictOf_map_snd (d : List (Option String × Rec)) (hco : Coherent d)
    (hnd : (d.map Prod.fst).Nodup) : dictOf (d.map Prod.snd) = d := by
  have h := foldl_dictOf_fresh d [] hco hnd (by simp)
  simpa [dictOf] using h

/-! ### The merge as a map -/

theorem lastMatch_foldl_acc (B : List Rec) (k : Option String)
    (acc : Option Rec) :
    B.foldl
      (fun acc r =>
        if truthyName r && decide (r.product_name = k) then some r else acc)
      acc =
      match lastMatch B k with
      | some x => some x
      | none => acc := by
  induction B generalizing acc with
  | nil => simp [lastMatch]
  | cons r rest ih =>
    simp only [lastMatch, List.foldl_cons] at ih ⊢
    rw [ih, ih (if truthyName r && decide (r.product_name = k)
      then some r else none)]
    by_cases h : truthyName r && decide (r.product_name = k)
    · simp only [h, if_true]
      rcases rest.foldl
        (fun acc r =>
          if truthyName r && decide (r.product_name = k) then some r else acc)
        none with _ | x <;> rfl
    · simp only [h, if_false]
      rcases rest.foldl
        (fun acc r =>
          if truthyName r && decide (r.product_name = k) then some r else acc)
        none with _ | x <;> rfl

theorem lookupKey_foldBatchD (B : List Rec)
    (d : List (Option String × Rec)) (k : Option String) :
    lookupKey (foldBatchD d B) k =
      match lastMatch B k with
      | some r => some r
      | none => lookupKey d k := by
  induction B generalizing d with
  | nil => simp [foldBatchD, lastMatch]
  | cons r rest ih =>
    simp only [foldBatchD, List.foldl_cons] at ih ⊢
    rw [ih]
    have hstep : lookupKey (if truthyName r then dictInsert r.product_name r d
        else d) k =
        if truthyName r && decide (r.product_name = k) then some r
        else lookupKey d k := by
      by_cases ht : truthyName r
      · simp only [ht, if_true, Bool.true_and]
        rw [lookupKey_dictInsert]
        by_cases hk : r.product_name = k
        · simp [hk]
        · have hk2 : ¬ k = r.product_name := fun hh => hk hh.symm
          simp [hk, hk2]
      · simp [ht]
    have hlast : lastMatch (r :: rest) k =
        match lastMatch rest k with
        | some x => some x
        | none =>
          if truthyName r && decide (r.product_name = k) then some r
          else none := by
      simp only [lastMatch, List.foldl_cons]
      exact lastMatch_foldl_acc rest k _
    rw [hstep, hlast]
    rcases lastMatch rest k with _ | x
    · by_cases hP : (truthyName r && decide (r.product_name = k)) = true
      · rw [if_pos hP, if_pos hP]
      · rw [if_neg hP, if_neg hP]
    · rfl

theorem recMap_mergeResults (S B : List Rec) :
    recMap (mergeResults S B) =
      fun k => lookupKey (foldBatchD (dictOf S) B) k := by
  funext k
  simp only [recMap, mergeResults]
  rw [dictOf_map_snd _ (coherent_foldBatchD _ _ (coherent_dictOf S))
    (nodup_foldBatchD _ _ (nodup_dictOf S))]

/-- C7: merging the same batch into the store twice in succession yields,
as a map from `product_name` to record (last write wins per key), the
same result as merging it once: for every prior record list `S` and
batch `B`, `merge (merge S B) B` and `merge S B` agree as maps. -/
theorem merge_batch_idempotent (S B : List Rec) :
    recMap (mergeResults (mergeResults S B) B) = recMap (mergeResults S B) := by
  funext k
  rw [recMap_mergeResults, recMap_mergeResults]
  simp only [mergeResults]
  rw [dictOf_map_snd _ (coherent_foldBatchD _ _ (coherent_dictOf S))
    (nodup_foldBatchD _ _ (nodup_dictOf S))]
  rw [lookupKey_foldBatchD, lookupKey_foldBatchD]
  rcases lastMatch B k with _ | x
  · simp
  · simp

theorem foldBatchD_filter_truthy (d : List (Option String × Rec))
    (B : List Rec) :
    foldBatchD d (B.filter truthyName) = foldBatchD d B := by
  induction B generalizing d with
  | nil => rfl
  | cons r rest ih =>
    by_cases h : truthyName r
    · simp only [List.filter_cons, h, if_true, foldBatchD, List.foldl_cons]
      exact ih _
    · simp only [List.filter_cons, h, Bool.false_eq_true, if_false, foldBatchD,
        List.foldl_cons, if_neg h]
      exact ih _

theorem truthy_mem_foldBatchD (d : List (Option String × Rec)) (B : List Rec)
    (hd : ∀ e ∈ d, truthyName e.2 = true) :
    ∀ e ∈ foldBatchD d B, truthyName e.2 = true := by
  induction B generalizing d with
  | nil => exact hd
  | cons r rest ih =>
    simp only [foldBatchD, List.foldl_cons]
    by_cases h : truthyName r
    · simp only [h, if_true]
      refine ih _ (fun e he => ?_)
      rcases mem_dictInsert he with h' | h'
      · subst h'
        exact h
      · exact hd e h'
    · simp only [h, if_false]
      exact ih _ hd

theorem truthy_mem_dictOf (S : List Rec)
    (hS : ∀ s ∈ S, truthyName s = true) :
    ∀ e ∈ dictOf S, truthyName e.2 = true := by
  have aux : ∀ (rs : List Rec) (acc : List (Option String × Rec)),
      (∀ s ∈ rs, truthyName s = true) →
      (∀ e ∈ acc, truthyName e.2 = true) →
      ∀ e ∈ rs.foldl (fun d r => dictInsert r.product_name r d) acc,
        truthyName e.2 = true := by
    intro rs
    induction rs with
    | nil => intro acc _ hacc; exact hacc
    | cons r rest ih =>
      intro acc hrs hacc
      simp only [List.foldl_cons]
      refine ih _ (fun s hs => hrs s (List.mem_cons_of_mem _ hs))
        (fun e he => ?_)
      rcases mem_dictInsert he with h' | h'
      · subst h'
        exact hrs r (List.mem_cons_self _ _)
      · exact hacc e h'
  exact aux S [] hS (by simp)

/-- C9: a batch record whose `product_name` is missing or empty is
silently skipped by the merge of `save_results_thread_safe`: the merge of
any batch equals the merge of its truthy-named sub-batch (so the skipped
record is never inserted and contributes nothing to `total_products` or
`products_found`), and when the prior store contains only truthy-named
records, so does the merged output. -/
theorem merge_skips_nameless (S B : List Rec) (r : Rec) (hr : r ∈ B)
    (hn : truthyName r = false) :
    mergeResults S B = mergeResults S (B.filter truthyName) ∧
      ((∀ s ∈ S, truthyName s = true) →
        ∀ x ∈ mergeResults S B, truthyName x = true) := by
  constructor
  · simp only [mergeResults]
    rw [foldBatchD_filter_truthy]
  · intro hS x hx
    simp only [mergeResults] at hx
    rcases List.mem_map.mp hx with ⟨e, he, rfl⟩
    exact truthy_mem_foldBatchD _ _ (truthy_mem_dictOf S hS) e he

/-- Witness for C9 at a concrete store and batch containing a nameless
record. -/
theorem merge_skips_nameless_witness :
    mergeResults [wRecA] [w9named, w9nameless] =
      mergeResults [wRecA] ([w9named, w9nameless].filter truthyName) ∧
      ∀ x ∈ mergeResults [wRecA] [w9named, w9nameless],
        truthyName x = true := by
  have h := merge_skips_nameless [wRecA] [w9named, w9nameless] w9nameless
    (by decide) (by decide)
  exact ⟨h.1, h.2 (by decide)⟩

/-- C1 (amended): for every batch, prior snapshot state and backup state,
provided the prior snapshot respects the one-record-per-`product_name`
invariant, the record count of the snapshot after
`save_results_thread_safe` is at least the count before: either the
merged set (which can only extend the reloaded dict) is written, or one
of the safety checks aborts the save, leaving the file unchanged. -/
theorem save_count_no_regress (results : List Rec) (file : FileState)
    (backup : Option (List Rec)) (h : goodNodupKeys file) :
    fileCount file ≤ fileCount (save_results_thread_safe results file backup) := by
  rcases file with _ | _ | l
  · exact Nat.zero_le _
  · exact Nat.zero_le _
  · have hml := length_foldBatchD (dictOf l) results
    have hdl : (dictOf l).length = l.length := length_dictOf_of_nodup _ h
    simp only [save_results_thread_safe, load_existing_results]
    split_ifs <;>
      simp_all only [fileCount, List.length_map, List.length_nil] <;>
      omega

/-- Witness for the amended C1 at a concrete nodup-keyed snapshot. -/
theorem save_count_no_regress_witness :
    fileCount (FileState.good [wRecA]) ≤
      fileCount (save_results_thread_safe [] (FileState.good [wRecA]) none) :=
  save_count_no_regress [] (FileState.good [wRecA]) none (by
    show ([wRecA].map Rec.product_name).Nodup
    decide)

/-- Counterexample to C1 as stated: a prior snapshot holding two records
that share the `product_name` key `"A"` shrinks from 2 records to 1 on a
save with an empty batch — the count does decrease. -/
theorem save_count_drop_cex :
    ¬ (fileCount (FileState.good [dupA1, dupA2]) ≤
        fileCount (save_results_thread_safe [] (FileState.good [dupA1, dupA2])
          none)) := by
  decide

/-! ### Worker loop (C4) -/

theorem worker_step_none (q : RQ) (em : List Rec) :
    worker_step q em none = (q, em) := rfl

theorem worker_step_found (q : RQ) (em : List Rec) (r : Rec)
    (h : r.found = true) : worker_step q em (some r) = (q, em ++ [r]) := by
  simp [worker_step, h]

theorem worker_step_unfound (q : RQ) (em : List Rec) (r : Rec)
    (h : r.found = false) : worker_step q em (some r) = (q, em) := by
  simp [worker_step, h]

theorem worker_run_spec (resolve : String → Option Rec) (ps : List String)
    (q : RQ) (em : List Rec) :
    worker_run resolve ps q em =
      (q, em ++ (ps.filterMap resolve).filter (fun r => r.found)) := by
  induction ps generalizing em with
  | nil => simp [worker_run]
  | cons p rest ih =>
    simp only [worker_run, List.foldl_cons] at ih ⊢
    rcases ho : resolve p with _ | r
    · rw [worker_step_none, ih em]
      simp [List.filterMap_cons, ho]
    · by_cases hf : r.found = true
      · rw [worker_step_found q em r hf, ih (em ++ [r])]
        simp [List.filterMap_cons, ho, List.filter_cons, hf]
      · rw [worker_step_unfound q em r (by simpa using hf), ih em]
        simp [List.filterMap_cons, ho, List.filter_cons, hf]

/-- C4 (amended): a `Blocked` outcome (`search_walmart_for_product`
returning `None`) never produces a record on the result channel or in
the persisted snapshot for that attempt — but the worker does NOT push
the product onto the retry queue: over any worker run the retry queue is
left untouched, and exactly the `found` records of the non-blocked
outcomes are emitted. -/
theorem worker_blocked_no_retry (resolve : String → Option Rec)
    (ps : List String) (q : RQ) :
    (worker_run resolve ps q []).1 = q ∧
      (worker_run resolve ps q []).2 =
        (ps.filterMap resolve).filter (fun r => r.found) := by
  rw [worker_run_spec]
  exact ⟨rfl, by simp⟩

/-- Counterexample to C4 as stated: after a worker receives a blocked
outcome for `"Milk 2L Nestle"` starting from an empty retry queue, the
retry queue is NOT the queue with that product's attempt counter
incremented. -/
theorem worker_blocked_retry_cex :
    (worker_run (fun _ => none) ["Milk 2L Nestle"] [] []).1 ≠
      add_to_retry_queue "Milk 2L Nestle" [] := by
  decide

/-! ### Retry-queue cap (C8) -/

theorem qBounded_add (p : String) (q : RQ) (h : qBounded q) :
    qBounded (add_to_retry_queue p q) := by
  simp only [add_to_retry_queue]
  by_cases hc : (qLookup q p).getD 0 < MAX_RETRY_ATTEMPTS
  · simp only [hc, if_true]
    intro e he
    rcases mem_dictInsert he with h' | h'
    · subst h'
      simpa using hc
    · exact h e h'
  · simp only [hc, if_false]
    exact h

theorem qBounded_remove (p : String) (q : RQ) (h : qBounded q) :
    qBounded (remove_from_retry_queue p q) := by
  intro e he
  exact h e (List.mem_of_mem_filter he)

theorem qBounded_applyOps (ops : List QOp) (q : RQ) (h : qBounded q) :
    qBounded (applyOps ops q) := by
  induction ops generalizing q with
  | nil => exact h
  | cons op rest ih =>
    simp only [applyOps, List.foldl_cons] at ih ⊢
    rcases op with p | p
    · exact ih _ (qBounded_add p q h)
    · exact ih _ (qBounded_remove p q h)

/-- C8: over every sequence of retry-queue `add`/`remove` operations from
an empty queue, no stored attempt counter ever exceeds
`MAX_RETRY_ATTEMPTS = 3`; an `add` on an entry at (or beyond) the cap
leaves the queue unchanged; and a product at the cap is excluded from the
list of products eligible for rescheduling. -/
theorem retry_attempts_capped (ops : List QOp) (p : String) (n : ℕ) :
    (qLookup (applyOps ops []) p = some n → n ≤ MAX_RETRY_ATTEMPTS) ∧
      ∀ q : RQ, (q.map Prod.fst).Nodup →
        MAX_RETRY_ATTEMPTS ≤ (qLookup q p).getD 0 →
          add_to_retry_queue p q = q ∧ p ∉ get_retry_queue_products q := by
  constructor
  · intro h
    have hb : qBounded (applyOps ops []) :=
      qBounded_applyOps ops [] (by intro e he; simp at he)
    exact hb (p, n) (lookupKey_mem h)
  · intro q hnd hcap
    rcases hq : qLookup q p with _ | m
    · rw [hq] at hcap
      simp [MAX_RETRY_ATTEMPTS] at hcap
    · rw [hq] at hcap
      simp only [Option.getD_some] at hcap
      constructor
      · simp only [add_to_retry_queue, hq, Option.getD_some]
        rw [if_neg (Nat.not_lt.mpr hcap)]
      · intro hmem
        simp only [get_retry_queue_products, List.mem_map] at hmem
        rcases hmem with ⟨e, he, rfl⟩
        have hlt : e.2 < MAX_RETRY_ATTEMPTS := by
          have := List.mem_filter.mp he
          simpa using this.2
        have hmem' : (e.1, e.2) ∈ q := by
          simpa using List.mem_of_mem_filter he
        have hlk : lookupKey q e.1 = some m := hq
        have hlk2 := lookupKey_of_mem_nodup hnd hmem'
        have hme : m = e.2 := by
          have h2 := hlk.symm.trans hlk2
          injection h2
        omega

/-- Witness for C8: three `add`s reach the cap, a fourth changes
nothing, and the capped product is not rescheduled. -/
theorem retry_attempts_capped_witness :
    3 ≤ MAX_RETRY_ATTEMPTS ∧
      add_to_retry_queue "x" [("x", 3)] = [("x", 3)] ∧
      "x" ∉ get_retry_queue_products [("x", 3)] := by
  have h := retry_attempts_capped
    [QOp.add "x", QOp.add "x", QOp.add "x", QOp.add "x"] "x" 3
  have h1 := h.1 (by decide)
  have h2 := h.2 [("x", 3)] (by decide) (by decide)
  exact ⟨h1, h2.1, h2.2⟩

/-! ### Match selection (C5, C6) -/

/-- C5: for the target `"Milk 2L Nestle"` and the three candidates of
the spec, the match-selection procedure deterministically returns the
`price:3.49` candidate — the two Nestle candidates tie on the boosted
match score and the tie is broken by the lower price; the unrelated cheap
candidate is rejected. -/
theorem select_best_milk :
    selectBest "Milk 2L Nestle" [c5milk1, c5soap, c5milk3] = some c5milk3 ∧
      c5milk3.price = some ⟨349, 100⟩ := by
  decide

/-- Counterexample to C6 as stated: for the target `"Cat Food"` and the
candidate name `"cat chow"`, the code's `matching_terms` (which also
requires a term length above 3) differs from the spec's count of all
terms appearing as substrings — the term `"cat"` of length 3 is in the
term list but is never counted. -/
theorem matching_terms_spec_cex :
    matching_terms (searchTerms "Cat Food") (pyLower "cat chow".toList) ≠
      spec_matching_terms (searchTerms "Cat Food")
        (pyLower "cat chow".toList) := by
  decide

/-- C6 (amended): with the term list as the code builds it (lowercase
whitespace tokens of the target of length > 2, plus the full lowercased
target when the target is longer than 3 characters), `matching_terms`
equals the count of terms OF LENGTH GREATER THAN 3 in that list that
appear as substrings of the lowercased candidate name, and — whenever the
term list is non-empty — `match_ratio` equals `matching_terms` divided by
the total number of terms. -/
theorem matching_terms_amended (target : String) (nameL : List Char) :
    matching_terms (searchTerms target) nameL =
      ((searchTerms target).filter (fun t => decide (t.length > 3))).countP
        (fun t => listContains nameL t) ∧
      (searchTerms target ≠ [] →
        match_score (searchTerms target) nameL =
          frDivNat (matching_terms (searchTerms target) nameL)
            (searchTerms target).length) := by
  constructor
  · rw [List.countP_filter]
    rfl
  · intro h
    simp only [match_score, h, if_false]

/-- Witness for the amended C6 at the target `"Cat Food"` and the
candidate name `"cat chow"`. -/
theorem matching_terms_amended_witness :
    searchTerms "Cat Food" ≠ [] ∧
      match_score (searchTerms "Cat Food") (pyLower "cat chow".toList) =
        frDivNat
          (matching_terms (searchTerms "Cat Food") (pyLower "cat chow".toList))
          (searchTerms "Cat Food").length :=
  ⟨by decide,
    (matching_terms_amended "Cat Food" (pyLower "cat chow".toList)).2
      (by decide)⟩

/-! ### Detail fetch (C3) -/

/-- Counterexample to C3 as stated: for a best match with name, price and
URL all present, the code still performs its one detail fetch (the fetch
is guarded only by the presence of a product URL), while the spec
prescribes a fetch only when the best match lacks a price. -/
theorem detail_fetch_spec_cex :
    detailFetchCount c3best ≠ specDetailFetchCount c3best := by
  decide

/-- C3 (amended): the follow-up detail fetch is attempted exactly once
whenever the best match has a product URL, regardless of whether it
already has a price; a blocked fetch aborts the product; a failed parse
keeps the unmodified search-result snapshot; a fetched record with a
truthy name longer than 3 characters replaces the search result
WHOLESALE (its null fields included); a fetched record without such a
name but with a truthy price has its price, brand, size and stock flag
overlaid selectively; anything else keeps the search-result snapshot. -/
theorem detail_fetch_characterization (best : Candidate) :
    (detailFetchCount best = if best.product_url.isSome then 1 else 0) ∧
      (best.product_url.isSome = true →
        resolveDetail best .failedBlocked = none) ∧
      (best.product_url.isSome = true →
        resolveDetail best .failedParse = some best) ∧
      (∀ d, best.product_url.isSome = true → validDetailName d = true →
        resolveDetail best (.fetched d) = some d) ∧
      (∀ d, best.product_url.isSome = true → validDetailName d = false →
        priceTruthy d.price = true →
        resolveDetail best (.fetched d) = some (overlayDetail best d)) ∧
      (∀ d, best.product_url.isSome = true → validDetailName d = false →
        priceTruthy d.price = false →
        resolveDetail best (.fetched d) = some best) := by
  refine ⟨rfl, ?_, ?_, ?_, ?_, ?_⟩
  · intro hu
    rcases hu' : best.product_url with _ | u
    · rw [hu'] at hu
      simp at hu
    · simp [resolveDetail, hu']
  · intro hu
    rcases hu' : best.product_url with _ | u
    · rw [hu'] at hu
      simp at hu
    · simp [resolveDetail, hu']
  · intro d hu hv
    rcases hu' : best.product_url with _ | u
    · rw [hu'] at hu
      simp at hu
    · simp [resolveDetail, hu', hv]
  · intro d hu hv hp
    rcases hu' : best.product_url with _ | u
    · rw [hu'] at hu
      simp at hu
    · simp [resolveDetail, hu', hv, hp]
  · intro d hu hv hp
    rcases hu' : best.product_url with _ | u
    · rw [hu'] at hu
      simp at hu
    · simp [resolveDetail, hu', hv, hp]

/-- Witness for the amended C3: a best match with a URL and a price
still keeps the search snapshot on a failed parse, and a detail record
with an invalid name but a truthy price is overlaid selectively. -/
theorem detail_fetch_characterization_witness :
    resolveDetail c3best .failedParse = some c3best ∧
      resolveDetail c3best (.fetched c3detail) =
        some (overlayDetail c3best c3detail) := by
  have h := detail_fetch_characterization c3best
  exact ⟨h.2.2.1 (by decide),
    h.2.2.2.2.1 c3detail (by decide) (by decide) (by decide)⟩

/-! ### End-to-end scenario (C2) -/

/-- Counterexample to C2 as stated: on the catalog
`["Milk 2L Nestle", "Bread White"]` with a store matching the first
product and returning zero candidates for the second, the final persisted
snapshot does NOT have `total_products = 2`: the worker only queues
`found=true` results, so the `found=false` record for
`"Bread White"` is never persisted. -/
theorem pipeline_totals_cex :
    fileTotals (run_pipeline resolveC2 ["Milk 2L Nestle", "Bread White"]) ≠
      some (2, 1) := by
  decide

/-- C2 (amended): on the catalog `["Milk 2L Nestle", "Bread White"]`,
where the store returns a match for the first product and zero candidates
for the second, the final persisted snapshot has `total_products = 1` and
`products_found = 1` — only the found record is persisted; the not-found
record is logged but never written. -/
theorem pipeline_totals :
    fileTotals (run_pipeline resolveC2 ["Milk 2L Nestle", "Bread White"]) =
      some (1, 1) := by
  decide

/-! ### Character and tokenization lemmas (towards C10) -/

theorem toLower_idem (c : Char) : c.toLower.toLower = c.toLower := by
  by_cases h : c.toNat ≥ 65 ∧ c.toNat ≤ 90
  · have hval : (c.toNat + 32).isValidChar := Or.inl (by omega)
    have htn : (Char.ofNat (c.toNat + 32)).toNat = c.toNat + 32 := by
      have hdef : Char.ofNat (c.toNat + 32) =
          Char.ofNatAux (c.toNat + 32) hval := dif_pos hval
      rw [hdef]
      rfl
    have h1 : c.toLower = Char.ofNat (c.toNat + 32) := by
      simp only [Char.toLower]
      rw [if_pos h]
    rw [h1]
    simp only [Char.toLower]
    rw [htn, if_neg (by omega)]
  · have h1 : c.toLower = c := by
      simp only [Char.toLower]
      rw [if_neg h]
    rw [h1, h1]

theorem space_toLower : (' ' : Char).toLower = ' ' := by decide

theorem pySplitRaw_ne_nil (l : List Char) : pySplitRaw l ≠ [] := by
  induction l with
  | nil => simp [pySplitRaw]
  | cons c cs ih =>
    by_cases h : c.isWhitespace
    · simp [pySplitRaw, h]
    · simp only [pySplitRaw, h, Bool.false_eq_true, if_false]
      rcases hr : pySplitRaw cs with _ | ⟨t, ts⟩
      · simp
      · simp

theorem pySplitRaw_cons_ws {c : Char} (l : List Char)
    (h : c.isWhitespace = true) :
    pySplitRaw (c :: l) = [] :: pySplitRaw l := by
  simp [pySplitRaw, h]

theorem pySplitRaw_cons_nonws {c : Char} {l : List Char} {t : List Char}
    {ts : List (List Char)} (h : c.isWhitespace = false)
    (hr : pySplitRaw l = t :: ts) :
    pySplitRaw (c :: l) = (c :: t) :: ts := by
  simp [pySplitRaw, h, hr]

theorem pySplitRaw_append_tok {t r : List Char}
    (ht : ∀ c ∈ t, c.isWhitespace = false) {h0 : List Char}
    {hs : List (List Char)} (hr : pySplitRaw r = h0 :: hs) :
    pySplitRaw (t ++ r) = (t ++ h0) :: hs := by
  induction t with
  | nil => simpa using hr
  | cons c cs ih =>
    have hc : c.isWhitespace = false := ht c (List.mem_cons_self _ _)
    have ih' := ih (fun c' hc' => ht c' (List.mem_cons_of_mem _ hc'))
    simpa using pySplitRaw_cons_nonws hc ih'

theorem mem_of_mem_pySplitRaw {t : List Char} {l : List Char}
    (ht : t ∈ pySplitRaw l) :
    ∀ c ∈ t, c ∈ l ∧ c.isWhitespace = false := by
  induction l generalizing t with
  | nil =>
    simp only [pySplitRaw, List.mem_singleton] at ht
    subst ht
    simp
  | cons c cs ih =>
    by_cases h : c.isWhitespace
    · rw [pySplitRaw_cons_ws cs h] at ht
      rcases List.mem_cons.mp ht with h' | h'
      · subst h'
        simp
      · intro a ha
        have := ih h' a ha
        exact ⟨List.mem_cons_of_mem _ this.1, this.2⟩
    · rcases hr : pySplitRaw cs with _ | ⟨t0, ts⟩
      · exact absurd hr (pySplitRaw_ne_nil cs)
      · rw [pySplitRaw_cons_nonws (by simpa using h) hr] at ht
        rcases List.mem_cons.mp ht with h' | h'
        · subst h'
          intro a ha
          rcases List.mem_cons.mp ha with h'' | h''
          · subst h''
            exact ⟨List.mem_cons_self _ _, by simpa using h⟩
          · have := ih (hr ▸ List.mem_cons_self t0 ts) a h''
            exact ⟨List.mem_cons_of_mem _ this.1, this.2⟩
        · intro a ha
          have := ih (hr ▸ List.mem_cons_of_mem t0 h') a ha
          exact ⟨List.mem_cons_of_mem _ this.1, this.2⟩

theorem pySplit_tok {t : List Char} {l : List Char} (ht : t ∈ pySplit l) :
    t ≠ [] ∧ ∀ c ∈ t, c ∈ l ∧ c.isWhitespace = false := by
  have hmem := List.mem_of_mem_filter ht
  have hne : t ≠ [] := by
    have := List.of_mem_filter ht
    simpa using this
  exact ⟨hne, mem_of_mem_pySplitRaw hmem⟩

theorem pySplit_joinSp {ts : List (List Char)}
    (h : ∀ t ∈ ts, t ≠ [] ∧ ∀ c ∈ t, c.isWhitespace = false) :
    pySplit (joinSp ts) = ts := by
  induction ts with
  | nil => rfl
  | cons t rest ih =>
    have ht := h t (List.mem_cons_self _ _)
    rcases rest with _ | ⟨t', rest'⟩
    · show pySplit (joinSp [t]) = [t]
      have hr : pySplitRaw ([] : List Char) = [] :: [] := rfl
      have : pySplitRaw (t ++ []) = (t ++ []) :: [] :=
        pySplitRaw_append_tok ht.2 hr
      simp only [List.append_nil] at this
      simp [pySplit, joinSp, this, ht.1]
    · have ih' := ih (fun u hu => h u (List.mem_cons_of_mem _ hu))
      show pySplit (t ++ ' ' :: joinSp (t' :: rest')) = t :: t' :: rest'
      rcases hr : pySplitRaw (joinSp (t' :: rest')) with _ | ⟨h0, hs⟩
      · exact absurd hr (pySplitRaw_ne_nil _)
      · have hws : (' ' : Char).isWhitespace = true := by decide
        have hr2 : pySplitRaw (' ' :: joinSp (t' :: rest')) =
            [] :: h0 :: hs := by
          rw [pySplitRaw_cons_ws _ hws, hr]
        have hr3 : pySplitRaw (t ++ ' ' :: joinSp (t' :: rest')) =
            (t ++ []) :: h0 :: hs := pySplitRaw_append_tok ht.2 hr2
        simp only [List.append_nil] at hr3
        have hfil : pySplit (joinSp (t' :: rest')) = t' :: rest' := ih'
        simp only [pySplit, hr] at hfil
        simp only [ne_eq, decide_not] at hfil
        simp [pySplit, hr3, ht.1, hfil]

theorem mem_joinSp {c : Char} {ts : List (List Char)} (h : c ∈ joinSp ts) :
    c = ' ' ∨ ∃ t ∈ ts, c ∈ t := by
  induction ts with
  | nil => simp [joinSp] at h
  | cons t rest ih =>
    rcases rest with _ | ⟨t', rest'⟩
    · exact Or.inr ⟨t, List.mem_cons_self _ _, h⟩
    · simp only [joinSp, List.mem_append, List.mem_cons] at h
      rcases h with h | h | h
      · exact Or.inr ⟨t, List.mem_cons_self _ _, h⟩
      · exact Or.inl h
      · rcases ih h with h' | ⟨u, hu, hcu⟩
        · exact Or.inl h'
        · exact Or.inr ⟨u, List.mem_cons_of_mem _ hu, hcu⟩

theorem mem_collapse {c : Char} {l : List Char} (h : c ∈ collapse l) :
    c = ' ' ∨ (c ∈ l ∧ c.isWhitespace = false) := by
  rcases mem_joinSp h with h' | ⟨t, ht, hct⟩
  · exact Or.inl h'
  · exact Or.inr ((pySplit_tok ht).2 c hct)

theorem collapse_collapse (l : List Char) :
    collapse (collapse l) = collapse l := by
  show joinSp (pySplit (joinSp (pySplit l))) = joinSp (pySplit l)
  rw [pySplit_joinSp (fun t ht => ?_)]
  have h := pySplit_tok ht
  exact ⟨h.1, fun c hc => (h.2 c hc).2⟩

/-! ### Stripping lemmas -/

theorem joinSp_head_nonws {ts : List (List Char)}
    (h : ∀ t ∈ ts, t ≠ [] ∧ ∀ c ∈ t, c.isWhitespace = false)
    (hne : ts ≠ []) :
    ∃ c cs, joinSp ts = c :: cs ∧ c.isWhitespace = false := by
  rcases ts with _ | ⟨t, rest⟩
  · exact absurd rfl hne
  · have ht := h t (List.mem_cons_self _ _)
    rcases hc : t with _ | ⟨c, cs'⟩
    · exact absurd hc ht.1
    · have hcw : c.isWhitespace = false :=
        ht.2 c (by rw [hc]; exact List.mem_cons_self _ _)
      rcases rest with _ | ⟨t', rest'⟩
      · exact ⟨c, cs', by simp [joinSp], hcw⟩
      · exact ⟨c, cs' ++ ' ' :: joinSp (t' :: rest'),
          by simp [joinSp], hcw⟩

theorem joinSp_rev_head_nonws {ts : List (List Char)}
    (h : ∀ t ∈ ts, t ≠ [] ∧ ∀ c ∈ t, c.isWhitespace = false)
    (hne : ts ≠ []) :
    ∃ c cs, (joinSp ts).reverse = c :: cs ∧ c.isWhitespace = false := by
  induction ts with
  | nil => exact absurd rfl hne
  | cons t rest ih =>
    have ht := h t (List.mem_cons_self _ _)
    rcases rest with _ | ⟨t', rest'⟩
    · rcases hrt : t.reverse with _ | ⟨c, cs⟩
      · exact absurd (by simpa using hrt) ht.1
      · refine ⟨c, cs, by simp [joinSp, hrt], ?_⟩
        exact ht.2 c (by
          have : c ∈ t.reverse := by rw [hrt]; exact List.mem_cons_self _ _
          simpa using this)
    · obtain ⟨c, cs, hrev, hcw⟩ :=
        ih (fun u hu => h u (List.mem_cons_of_mem _ hu)) (by simp)
      refine ⟨c, cs ++ ' ' :: t.reverse, ?_, hcw⟩
      show (t ++ ' ' :: joinSp (t' :: rest')).reverse = _
      rw [List.reverse_append, List.reverse_cons, hrev]
      simp

theorem dropWhile_eq_self_of_head {c : Char} {cs x : List Char}
    (hx : x = c :: cs) (hc : c.isWhitespace = false) :
    x.dropWhile Char.isWhitespace = x := by
  subst hx
  simp [List.dropWhile_cons, hc]

theorem pyStrip_collapse (l : List Char) :
    pyStrip (collapse l) = collapse l := by
  rcases hts : pySplit l with _ | ⟨t, ts⟩
  · show pyStrip (joinSp (pySplit l)) = joinSp (pySplit l)
    rw [hts]
    rfl
  · have hgood : ∀ u ∈ pySplit l, u ≠ [] ∧ ∀ c ∈ u, c.isWhitespace = false :=
      fun u hu => ⟨(pySplit_tok hu).1, fun c hc => ((pySplit_tok hu).2 c hc).2⟩
    rw [hts] at hgood
    obtain ⟨c1, cs1, hh, hc1⟩ := joinSp_head_nonws hgood (by simp)
    obtain ⟨c2, cs2, hr, hc2⟩ := joinSp_rev_head_nonws hgood (by simp)
    have hx : collapse l = joinSp (t :: ts) := by rw [collapse, hts]
    rw [hx]
    show ((((joinSp (t :: ts)).dropWhile Char.isWhitespace).reverse).dropWhile
      Char.isWhitespace).reverse = joinSp (t :: ts)
    rw [dropWhile_eq_self_of_head hh hc1, dropWhile_eq_self_of_head hr hc2,
      List.reverse_reverse]

/-! ### The regex substitutions are the identity on bracket- and
dash-free inputs, and only delete or insert spaces -/

theorem findClose_subset {cl : Char} {l r : List Char}
    (h : findClose cl l = some r) : ∀ c ∈ r, c ∈ l := by
  induction l with
  | nil => simp [findClose] at h
  | cons c0 cs ih =>
    by_cases h1 : c0 = cl
    · simp only [findClose, h1, if_pos rfl] at h
      injection h with h
      subst h
      exact fun c hc => List.mem_cons_of_mem _ hc
    · simp only [findClose, h1, if_false] at h
      by_cases h2 : c0 = '\n'
      · rw [if_pos h2] at h
        exact absurd h (by simp)
      · rw [if_neg h2] at h
        exact fun c hc => List.mem_cons_of_mem _ (ih h c hc)

theorem matchBracket_subset {l r : List Char} (h : matchBracket l = some r) :
    ∀ c ∈ r, c ∈ l := by
  have hsub : ∀ c ∈ l.dropWhile Char.isWhitespace, c ∈ l :=
    fun c hc => (List.dropWhile_sublist _).subset hc
  rcases hd : l.dropWhile Char.isWhitespace with _ | ⟨c0, rest⟩
  · simp [matchBracket, hd] at h
  · simp only [matchBracket, hd] at h
    have hrest : ∀ c ∈ rest, c ∈ l := by
      intro c hc
      exact hsub c (by rw [hd]; exact List.mem_cons_of_mem _ hc)
    by_cases h1 : c0 = '('
    · rw [if_pos h1] at h
      exact fun c hc => hrest c (findClose_subset h c hc)
    · rw [if_neg h1] at h
      by_cases h2 : c0 = '['
      · rw [if_pos h2] at h
        exact fun c hc => hrest c (findClose_subset h c hc)
      · rw [if_neg h2] at h
        exact absurd h (by simp)

theorem matchBracket_none {l : List Char} (h1 : '(' ∉ l) (h2 : '[' ∉ l) :
    matchBracket l = none := by
  rcases hd : l.dropWhile Char.isWhitespace with _ | ⟨c0, rest⟩
  · simp [matchBracket, hd]
  · have hc0 : c0 ∈ l := (List.dropWhile_sublist _).subset
      (by rw [hd]; exact List.mem_cons_self _ _)
    have hn1 : ¬ c0 = '(' := fun hh => h1 (hh ▸ hc0)
    have hn2 : ¬ c0 = '[' := fun hh => h2 (hh ▸ hc0)
    simp [matchBracket, hd, hn1, hn2]

theorem sub2Fuel_eq_self {l : List Char} (h1 : '(' ∉ l) (h2 : '[' ∉ l)
    (fuel : ℕ) : sub2Fuel fuel l = l := by
  induction fuel generalizing l with
  | zero => rfl
  | succ fuel ih =>
    rcases l with _ | ⟨c, cs⟩
    · rfl
    · have hm : matchBracket (c :: cs) = none := matchBracket_none h1 h2
      simp only [sub2Fuel, hm]
      rw [ih (fun hh => h1 (List.mem_cons_of_mem _ hh))
        (fun hh => h2 (List.mem_cons_of_mem _ hh))]

theorem mem_sub2Fuel {fuel : ℕ} {l : List Char} {c : Char}
    (h : c ∈ sub2Fuel fuel l) : c ∈ l := by
  induction fuel generalizing l with
  | zero => exact h
  | succ fuel ih =>
    rcases l with _ | ⟨c0, cs⟩
    · rw [show sub2Fuel (fuel + 1) ([] : List Char) = [] from rfl] at h
      exact h
    · rcases hm : matchBracket (c0 :: cs) with _ | rest
      · simp only [sub2Fuel, hm] at h
        rcases List.mem_cons.mp h with h' | h'
        · simp [h']
        · exact List.mem_cons_of_mem _ (ih h')
      · simp only [sub2Fuel, hm] at h
        exact matchBracket_subset hm c (ih h)

theorem matchDash_subset {l r : List Char} (h : matchDash l = some r) :
    ∀ c ∈ r, c ∈ l := by
  rcases hd : l.dropWhile Char.isWhitespace with _ | ⟨c0, rest⟩
  · simp [matchDash, hd] at h
  · simp only [matchDash, hd] at h
    by_cases h1 : c0 = '-'
    · rw [if_pos h1] at h
      injection h with h
      subst h
      intro c hc
      have hc' : c ∈ rest := (List.dropWhile_sublist _).subset hc
      exact (List.dropWhile_sublist Char.isWhitespace).subset
        (by rw [hd]; exact List.mem_cons_of_mem _ hc')
    · rw [if_neg h1] at h
      exact absurd h (by simp)

theorem matchDash_none {l : List Char} (h : '-' ∉ l) :
    matchDash l = none := by
  rcases hd : l.dropWhile Char.isWhitespace with _ | ⟨c0, rest⟩
  · simp [matchDash, hd]
  · have hc0 : c0 ∈ l := (List.dropWhile_sublist _).subset
      (by rw [hd]; exact List.mem_cons_self _ _)
    have hn : ¬ c0 = '-' := fun hh => h (hh ▸ hc0)
    simp [matchDash, hd, hn]

theorem sub3Fuel_eq_self {l : List Char} (h : '-' ∉ l) (fuel : ℕ) :
    sub3Fuel fuel l = l := by
  induction fuel generalizing l with
  | zero => rfl
  | succ fuel ih =>
    rcases l with _ | ⟨c, cs⟩
    · rfl
    · have hm : matchDash (c :: cs) = none := matchDash_none h
      simp only [sub3Fuel, hm]
      rw [ih (fun hh => h (List.mem_cons_of_mem _ hh))]

theorem mem_sub3Fuel {fuel : ℕ} {l : List Char} {c : Char}
    (h : c ∈ sub3Fuel fuel l) : c = ' ' ∨ c ∈ l := by
  induction fuel generalizing l with
  | zero => exact Or.inr h
  | succ fuel ih =>
    rcases l with _ | ⟨c0, cs⟩
    · rw [show sub3Fuel (fuel + 1) ([] : List Char) = [] from rfl] at h
      simp at h
    · rcases hm : matchDash (c0 :: cs) with _ | rest
      · simp only [sub3Fuel, hm] at h
        rcases List.mem_cons.mp h with h' | h'
        · exact Or.inr (by simp [h'])
        · rcases ih h' with h'' | h''
          · exact Or.inl h''
          · exact Or.inr (List.mem_cons_of_mem _ h'')
      · simp only [sub3Fuel, hm] at h
        rcases List.mem_cons.mp h with h' | h'
        · exact Or.inl h'
        · rcases ih h' with h'' | h''
          · exact Or.inl h''
          · exact Or.inr (matchDash_subset hm c h'')

/-! ### Characterizing `normalize_product_name` output (C10) -/

theorem mem_pyStrip {l : List Char} {c : Char} (h : c ∈ pyStrip l) :
    c ∈ l := by
  simp only [pyStrip, List.mem_reverse] at h
  have h1 := (List.dropWhile_sublist Char.isWhitespace).subset h
  rw [List.mem_reverse] at h1
  exact (List.dropWhile_sublist Char.isWhitespace).subset h1

theorem map_eq_self_of {α : Type} (f : α → α) (l : List α)
    (h : ∀ a ∈ l, f a = a) : l.map f = l := by
  induction l with
  | nil => rfl
  | cons a rest ih =>
    simp only [List.map_cons, h a (List.mem_cons_self _ _),
      ih (fun a' ha' => h a' (List.mem_cons_of_mem _ ha'))]

theorem filter5_eq_self {l : List Char}
    (h : ∀ c ∈ l, isWordChar c = true ∨ c = ' ') : filter5 l = l := by
  refine List.filter_eq_self.mpr (fun c hc => ?_)
  rcases h c hc with h' | h'
  · simp [h']
  · subst h'
    decide

theorem normalizeL_chars (l : List Char) :
    ∀ c ∈ normalizeL l, (isWordChar c = true ∨ c = ' ') ∧ c.toLower = c := by
  intro c hc
  have h1 : c ∈ filter5 (collapse (sub3 (sub2 (pyLower l)))) := mem_pyStrip hc
  have h2 := List.mem_filter.mp h1
  have h3 := mem_collapse h2.1
  have hpred := h2.2
  constructor
  · rcases h3 with h' | h'
    · exact Or.inr h'
    · simp only [Bool.or_eq_true] at hpred
      rcases hpred with hp | hp
      · exact Or.inl hp
      · rw [h'.2] at hp
        exact absurd hp (by simp)
  · rcases h3 with h' | h'
    · rw [h']
      exact space_toLower
    · have h4 : c ∈ sub3 (sub2 (pyLower l)) := h'.1
      rcases mem_sub3Fuel h4 with h5 | h5
      · rw [h5]
        exact space_toLower
      · have h6 : c ∈ pyLower l := mem_sub2Fuel h5
        rcases List.mem_map.mp h6 with ⟨c0, _, rfl⟩
        exact toLower_idem c0

theorem normalizeL_of_canonical {t : List Char}
    (hfix : ∀ c ∈ t, c.toLower = c)
    (hcls : ∀ c ∈ t, isWordChar c = true ∨ c = ' ') :
    normalizeL t = collapse t := by
  have hlow : pyLower t = t := map_eq_self_of _ _ hfix
  have hnb1 : '(' ∉ t := by
    intro hm
    rcases hcls _ hm with h' | h'
    · exact absurd h' (by decide)
    · exact absurd h' (by decide)
  have hnb2 : '[' ∉ t := by
    intro hm
    rcases hcls _ hm with h' | h'
    · exact absurd h' (by decide)
    · exact absurd h' (by decide)
  have hnd : '-' ∉ t := by
    intro hm
    rcases hcls _ hm with h' | h'
    · exact absurd h' (by decide)
    · exact absurd h' (by decide)
  have hsub2 : sub2 t = t := sub2Fuel_eq_self hnb1 hnb2 _
  have hsub3 : sub3 t = t := sub3Fuel_eq_self hnd _
  have hfil : filter5 (collapse t) = collapse t := by
    refine filter5_eq_self (fun c hc => ?_)
    rcases mem_collapse hc with h' | h'
    · exact Or.inr h'
    · exact hcls c h'.1
  show pyStrip (filter5 (collapse (sub3 (sub2 (pyLower t))))) = collapse t
  rw [hlow, hsub2, hsub3, hfil, pyStrip_collapse]

theorem collapse_canonical {t : List Char}
    (hfix : ∀ c ∈ t, c.toLower = c)
    (hcls : ∀ c ∈ t, isWordChar c = true ∨ c = ' ') :
    (∀ c ∈ collapse t, c.toLower = c) ∧
      ∀ c ∈ collapse t, isWordChar c = true ∨ c = ' ' := by
  constructor
  · intro c hc
    rcases mem_collapse hc with h' | h'
    · rw [h']
      exact space_toLower
    · exact hfix c h'.1
  · intro c hc
    rcases mem_collapse hc with h' | h'
    · exact Or.inr h'
    · exact hcls c h'.1

theorem normalizeL_triple (l : List Char) :
    normalizeL (normalizeL (normalizeL l)) = normalizeL (normalizeL l) := by
  have h := normalizeL_chars l
  have hfix : ∀ c ∈ normalizeL l, c.toLower = c := fun c hc => (h c hc).2
  have hcls : ∀ c ∈ normalizeL l, isWordChar c = true ∨ c = ' ' :=
    fun c hc => (h c hc).1
  have e1 : normalizeL (normalizeL l) = collapse (normalizeL l) :=
    normalizeL_of_canonical hfix hcls
  have hc2 := collapse_canonical hfix hcls
  have e2 : normalizeL (collapse (normalizeL l)) =
      collapse (collapse (normalizeL l)) :=
    normalizeL_of_canonical hc2.1 hc2.2
  rw [e1, e2, collapse_collapse, ← e1]

theorem toList_asString (l : List Char) : (List.asString l).toList = l := rfl

theorem normalize_eq_asString (s : String) :
    normalize_product_name s = (normalizeL s.toList).asString := by
  by_cases h : s = ""
  · subst h
    rfl
  · simp [normalize_product_name, h]

/-- Counterexample to C10 as stated: `normalize_product_name` is not
idempotent — on `"a ! b"` one pass yields `"a  b"` (the `'!'` is deleted
only after whitespace collapsing, leaving a double space), and a second
pass collapses it further to `"a b"`. -/
theorem normalize_idem_cex :
    normalize_product_name (normalize_product_name "a ! b") ≠
      normalize_product_name "a ! b" := by
  decide

/-- C10 (amended): `normalize_product_name` is not idempotent in
general, but its double application is stable: for every string `s`,
normalizing three times equals normalizing twice, so the identity key is
stable from the second normalization on. -/
theorem normalize_double_stable (s : String) :
    normalize_product_name (normalize_product_name
        (normalize_product_name s)) =
      normalize_product_name (normalize_product_name s) := by
  rw [normalize_eq_asString s,
    normalize_eq_asString ((normalizeL s.toList).asString), toList_asString,
    normalize_eq_asString, toList_asString]
  exact congrArg List.asString (normalizeL_triple s.toList)

end ProductsScraper
